import Mathlib

/-!
Verification of the text-transformation core of `scripts/vps_switch_media_to_r2.py`:
the env-file updater `_format_env` (spec: EnvFileEditor.render), the env parser
`_parse_env`, and the Caddyfile block stripper `_strip_s3_vhost_from_caddyfile`
(spec: ConfigBlockStripper.removeBlocks).

Python strings are modelled as `List Char`.  `str.splitlines`, `str.strip`,
`str.rstrip` and the two regexes are embedded faithfully below.
-/

namespace VpsR2

/-- The apostrophe character (`'`), written by code point. -/
def apos : Char := Char.ofNat 39

/-- The double-quote character (`"`), written by code point. -/
def dquote : Char := Char.ofNat 34

/-- The open-brace character, written by code point. -/
def obrace : Char := Char.ofNat 123

/-- The close-brace character, written by code point. -/
def cbrace : Char := Char.ofNat 125

/-- Line-boundary characters of Python `str.splitlines`:
`\n`, `\v`, `\f`, `\r`, FS, GS, RS, NEL, LINE SEPARATOR, PARAGRAPH SEPARATOR. -/
def isLineBoundary (c : Char) : Bool :=
  c.toNat = 10 || c.toNat = 11 || c.toNat = 12 || c.toNat = 13 ||
  c.toNat = 28 || c.toNat = 29 || c.toNat = 30 ||
  c.toNat = 133 || c.toNat = 8232 || c.toNat = 8233

/-- Whitespace for Python `str.strip` / `str.isspace` / regex `\s`:
ASCII whitespace, the separator control characters, and Unicode spaces. -/
def isPySpace (c : Char) : Bool :=
  c.toNat = 32 || c.toNat = 9 || isLineBoundary c || c.toNat = 31 ||
  c.toNat = 160 || c.toNat = 5760 ||
  (8192 ≤ c.toNat && c.toNat ≤ 8202) ||
  c.toNat = 8239 || c.toNat = 8287 || c.toNat = 12288

/-- First character of a key in the `_format_env` regex: `[A-Za-z_]`. -/
def keyStart (c : Char) : Bool :=
  (65 ≤ c.toNat && c.toNat ≤ 90) || (97 ≤ c.toNat && c.toNat ≤ 122) ||
  c.toNat = 95

/-- Subsequent key characters in the `_format_env` regex: `[A-Za-z0-9_]`. -/
def keyChar (c : Char) : Bool :=
  keyStart c || (48 ≤ c.toNat && c.toNat ≤ 57)

/-- A word that matches the full key pattern `[A-Za-z_][A-Za-z0-9_]*`. -/
def isKeyToken : List Char → Bool
  | [] => false
  | c :: rest => keyStart c && rest.all keyChar

/-- Python `str.splitlines`: split at line boundaries, `\r\n` counting as a
single boundary, with no trailing empty line for a trailing boundary. -/
def pySplitlines : List Char → List (List Char)
  | [] => []
  | c :: rest =>
    if c = Char.ofNat 13 then
      match rest with
      | [] => [[]]
      | d :: rest2 =>
        if d = Char.ofNat 10 then [] :: pySplitlines rest2
        else [] :: pySplitlines (d :: rest2)
    else if isLineBoundary c then [] :: pySplitlines rest
    else
      match pySplitlines rest with
      | [] => [[c]]
      | l :: ls => (c :: l) :: ls

/-- Join lines with `\n`, as Python `"\n".join(lines)`. -/
def joinNl : List (List Char) → List Char
  | [] => []
  | [l] => l
  | l :: ls => l ++ '\n' :: joinNl ls

/-- Python `str.rstrip()`: drop trailing whitespace. -/
def rstrip (s : List Char) : List Char :=
  (s.reverse.dropWhile isPySpace).reverse

/-- Python `str.strip()`: drop leading and trailing whitespace. -/
def pyStrip (s : List Char) : List Char :=
  rstrip (s.dropWhile isPySpace)

/-- Membership test used for Python's `k in existing_keys` / `k in d`. -/
def keyMem (k : List Char) : List (List Char) → Bool
  | [] => false
  | x :: xs => if x = k then true else keyMem k xs

/-- An insertion-ordered string-to-string mapping (a Python `dict`). -/
abbrev EnvDict := List (List Char × List Char)

/-- Lookup in an association list: Python `d[k]` / `k in d`. -/
def lookupKV : EnvDict → List Char → Option (List Char)
  | [], _ => none
  | kv :: rest, k => if kv.1 = k then some kv.2 else lookupKV rest k

/-- Python `"=" in line`. -/
def hasEq : List Char → Bool
  | [] => false
  | c :: t => if c = '=' then true else hasEq t

/-- Python `line.split("=", 1)` when an `=` is present:
the part before the first `=` and the part after it. -/
def splitEq : List Char → List Char × List Char
  | [] => ([], [])
  | c :: t =>
    if c = '=' then ([], t)
    else
      let p := splitEq t
      (c :: p.1, p.2)

/-- The match of `re.match(r"^\s*([A-Za-z_][A-Za-z0-9_]*)\s*=\s*(.*)\s*$", line)`
in `_format_env`, returning the captured key.  For a line without `\n` the
trailing part of the pattern always matches, so a line matches exactly when,
after optional leading whitespace, it carries a maximal key token followed by
optional whitespace and an `=`. -/
def matchKey (line : List Char) : Option (List Char) :=
  let r := line.dropWhile isPySpace
  let k := r.takeWhile keyChar
  if isKeyToken k ∧ ((r.drop k.length).dropWhile isPySpace).head? = some '=' then
    some k
  else none

/-- The rewritten line `f'{k}="{d[k]}"'` of `_format_env`. -/
def kvLine (k v : List Char) : List Char :=
  k ++ '=' :: dquote :: (v ++ [dquote])

/-- One loop iteration of `_format_env`: a non-matching line passes through;
a matching line whose key is in `d` is rewritten to `k="v"`. -/
def processLine (d : EnvDict) (line : List Char) : List Char :=
  match matchKey line with
  | none => line
  | some k =>
    match lookupKV d k with
    | none => line
    | some v => kvLine k v

/-- The marker comment appended by `_format_env` before missing keys. -/
def envMarker : List Char := ("# Added by vps_switch_media_to_r2.py").toList

/-- The output lines of `_format_env`: every input line processed in order,
then, if some key of `d` matched no line, a blank line, the marker comment,
and one `k="v"` line per missing key in the order of `d`. -/
def formatEnvLines (d : EnvDict) (lines : List (List Char)) : List (List Char) :=
  let outLines := lines.map (processLine d)
  let existing := lines.filterMap matchKey
  let missing := d.filter (fun kv => !(keyMem kv.1 existing))
  if missing.isEmpty then outLines
  else outLines ++ [[], envMarker] ++ missing.map (fun kv => kvLine kv.1 kv.2)

/-- `_format_env(d, original)`: process the lines of `original` and join with
`\n`, appending one final newline. -/
def formatEnv (d : EnvDict) (original : List Char) : List Char :=
  joinNl (formatEnvLines d (pySplitlines original)) ++ ['\n']

/-- Strip a matching outer quote pair, as `_parse_env` does:
`if len(v) >= 2 and ((v[0] == v[-1] == '"') or (v[0] == v[-1] == "'")): v = v[1:-1]`. -/
def stripOuterQuotes (v : List Char) : List Char :=
  if 2 ≤ v.length ∧
      ((v.head? = some dquote ∧ v.getLast? = some dquote) ∨
        (v.head? = some apos ∧ v.getLast? = some apos)) then
    (v.drop 1).dropLast
  else v

/-- One line of `_parse_env`: strip the line; skip it when empty, a comment,
or without `=`; otherwise split at the first `=`, strip both sides, and strip
an outer quote pair from the value. -/
def parseLine (l : List Char) : Option (List Char × List Char) :=
  let s := pyStrip l
  if s = [] then none
  else if s.head? = some '#' then none
  else if hasEq s = false then none
  else
    let p := splitEq s
    some (pyStrip p.1, stripOuterQuotes (pyStrip p.2))

/-- Replace a pair's value when its key is the assigned one. -/
def setPair (k v : List Char) (kv : List Char × List Char) : List Char × List Char :=
  if kv.1 = k then (k, v) else kv

/-- Python `out[k] = v` on an insertion-ordered dict: replace the value of an
existing key in place, otherwise append the pair at the end. -/
def dictSet (m : EnvDict) (k v : List Char) : EnvDict :=
  if keyMem k (m.map Prod.fst) then m.map (setPair k v)
  else m ++ [(k, v)]

/-- One line of the `_parse_env` fold. -/
def parseStep (acc : EnvDict) (l : List Char) : EnvDict :=
  match parseLine l with
  | none => acc
  | some kv => dictSet acc kv.1 kv.2

/-- `_parse_env(content)`: fold the parsed lines into a dict, later
assignments overwriting earlier ones. -/
def parseEnv (content : List Char) : EnvDict :=
  (pySplitlines content).foldl parseStep []

/-- A character allowed inside the label remainder `[^\s{]` of the vhost
header regex: neither whitespace nor an open brace. -/
def labChar (c : Char) : Bool :=
  !(isPySpace c) && !(c = obrace : Bool)

/-- The match of `re.match(r"^\s*(s3\.[^\s{]+)\s*\{\s*$", line)` in
`_strip_s3_vhost_from_caddyfile`: after optional leading whitespace the line
holds `s3.`, a nonempty label remainder free of whitespace and `{`, optional
whitespace, an `{`, and then only whitespace. -/
def isBlockHeader (line : List Char) : Bool :=
  let r := line.dropWhile isPySpace
  let lab := (r.drop 3).takeWhile labChar
  let r3 := ((r.drop 3).drop lab.length).dropWhile isPySpace
  r.take 3 = ['s', '3', '.'] && !(lab.isEmpty) && r3.head? = some obrace &&
    (r3.drop 1).all isPySpace

/-- Count occurrences of a character, Python `line.count(c)`. -/
def countChar (c : Char) : List Char → Nat
  | [] => 0
  | x :: t => (if x = c then 1 else 0) + countChar c t

/-- `line.count("{") - line.count("}")`, the per-line brace-depth change. -/
def braceDelta (l : List Char) : Int :=
  (countChar obrace l : Int) - (countChar cbrace l : Int)

/-- Total brace-depth change over a list of lines. -/
def sumDelta (ls : List (List Char)) : Int :=
  (ls.map braceDelta).sum

/-- The trailing loop `while i < len(lines) and lines[i].strip() == "": i += 1`:
drop leading all-whitespace lines. -/
def skipBlanks : List (List Char) → List (List Char)
  | [] => []
  | l :: ls => if pyStrip l = [] then skipBlanks ls else l :: ls

/-- The inner loop `while i < len(lines) and depth > 0: ...` of
`_strip_s3_vhost_from_caddyfile`, followed by the blank-line skip:
consume lines while the running depth stays positive, then drop blanks. -/
def consumeBlock : Int → List (List Char) → List (List Char)
  | _, [] => []
  | d, l :: rest =>
    if 0 < d then consumeBlock (d + braceDelta l) rest
    else skipBlanks (l :: rest)

/-- `(skipBlanks ls).length ≤ ls.length`. -/
theorem skipBlanks_length_le : ∀ ls : List (List Char), (skipBlanks ls).length ≤ ls.length := by
  intro ls
  induction ls with
  | nil => simp [skipBlanks]
  | cons l t ih =>
    simp only [skipBlanks]
    split
    · exact le_trans ih (Nat.le_succ _)
    · simp

/-- `(consumeBlock d ls).length ≤ ls.length`. -/
theorem consumeBlock_length_le : ∀ (ls : List (List Char)) (d : Int), (consumeBlock d ls).length ≤ ls.length := by
  intro ls
  induction ls with
  | nil => intro d; simp [consumeBlock]
  | cons l t ih =>
    intro d
    simp only [consumeBlock]
    split
    · exact le_trans (ih _) (Nat.le_succ _)
    · exact skipBlanks_length_le _

/-- The outer scan of `_strip_s3_vhost_from_caddyfile`: a non-header line is
retained; a header line is dropped together with its block (via
`consumeBlock`, seeded with the header's own brace delta) and any following
blank lines. -/
def stripLoop : List (List Char) → List (List Char)
  | [] => []
  | l :: ls =>
    if isBlockHeader l then stripLoop (consumeBlock (braceDelta l) ls)
    else l :: stripLoop ls
termination_by ls => ls.length
decreasing_by
  · exact Nat.lt_succ_of_le (consumeBlock_length_le _ _)
  · simp

/-- `_strip_s3_vhost_from_caddyfile(caddyfile)`: scan the lines, join the
retained ones with `\n`, strip trailing whitespace, append one `\n`. -/
def stripS3 (caddyfile : List Char) : List Char :=
  rstrip (joinNl (stripLoop (pySplitlines caddyfile))) ++ ['\n']

/-- A structurally recursive single-pass form of the scan, used to evaluate
it on concrete inputs: `none` is copy mode; `some d` is the state inside the
skip of a removed block (`0 < d`) or the blank-skip that follows (`d ≤ 0`). -/
def stripGo : Option Int → List (List Char) → List (List Char)
  | _, [] => []
  | none, l :: ls =>
    if isBlockHeader l then stripGo (some (braceDelta l)) ls
    else l :: stripGo none ls
  | some d, l :: ls =>
    if 0 < d then stripGo (some (d + braceDelta l)) ls
    else if pyStrip l = [] then stripGo (some d) ls
    else if isBlockHeader l then stripGo (some (braceDelta l)) ls
    else l :: stripGo none ls

/-- The retained-line normalization done by `rstrip` after a `\n`-join:
drop trailing all-whitespace lines, then `rstrip` the last surviving line. -/
def rstripLines (ls : List (List Char)) : List (List Char) :=
  match ls.reverse.dropWhile (fun l => l.all isPySpace) with
  | [] => []
  | l :: rest => ((rstrip l) :: rest).reverse


/-! ### Helper lemmas about whitespace, `rstrip`, `joinNl` and `pySplitlines` -/

/-- Line-boundary characters are whitespace. -/
theorem isPySpace_of_boundary {c : Char} (h : isLineBoundary c = true) :
    isPySpace c = true := by
  simp [isPySpace, h]

/-- Key characters are not whitespace. -/
theorem keyChar_not_space {c : Char} (h : keyChar c = true) :
    isPySpace c = false := by
  simp [keyChar, keyStart] at h
  simp [isPySpace, isLineBoundary]
  omega

/-- Key characters are not line boundaries. -/
theorem keyChar_not_boundary {c : Char} (h : keyChar c = true) :
    isLineBoundary c = false := by
  simp [keyChar, keyStart] at h
  simp [isLineBoundary]
  omega

/-- `dropWhile` over an all-satisfying prefix. -/
theorem dropWhile_append_all {p : Char → Bool} {a : List Char} (b : List Char)
    (h : ∀ c ∈ a, p c = true) :
    List.dropWhile p (a ++ b) = List.dropWhile p b := by
  induction a with
  | nil => simp
  | cons x t ih =>
    have hx := h x (by simp)
    simp only [List.cons_append, List.dropWhile_cons, hx, if_true]
    exact ih (fun c hc => h c (by simp [hc]))

/-- `dropWhile` over a prefix whose `dropWhile` is nonempty. -/
theorem dropWhile_append_ne_nil {p : Char → Bool} {a : List Char} (b : List Char)
    (h : List.dropWhile p a ≠ []) :
    List.dropWhile p (a ++ b) = List.dropWhile p a ++ b := by
  induction a with
  | nil => simp at h
  | cons x t ih =>
    cases hx : p x with
    | true =>
      simp only [List.dropWhile_cons, hx, if_true] at h ⊢
      simp only [List.cons_append, List.dropWhile_cons, hx, if_true]
      exact ih h
    | false =>
      simp only [List.cons_append, List.dropWhile_cons, hx]
      simp

/-- `takeWhile` over an all-satisfying prefix. -/
theorem takeWhile_append_all {p : Char → Bool} {a : List Char} (b : List Char)
    (h : ∀ c ∈ a, p c = true) :
    List.takeWhile p (a ++ b) = a ++ List.takeWhile p b := by
  induction a with
  | nil => simp
  | cons x t ih =>
    have hx := h x (by simp)
    simp only [List.cons_append, List.takeWhile_cons, hx, if_true, List.cons_inj_right]
    exact ih (fun c hc => h c (by simp [hc]))

/-- A list whose head fails the predicate is untouched by `dropWhile`. -/
theorem dropWhile_cons_neg {p : Char → Bool} {c : Char} (t : List Char)
    (h : p c = false) : List.dropWhile p (c :: t) = c :: t := by
  simp [List.dropWhile_cons, h]

/-- `rstrip` distributes over append: the suffix survives iff it is not
all-whitespace. -/
theorem rstrip_append (a b : List Char) :
    rstrip (a ++ b) = if rstrip b = [] then rstrip a else a ++ rstrip b := by
  unfold rstrip
  by_cases h : List.dropWhile isPySpace b.reverse = []
  · rw [if_pos (by simp [h])]
    rw [List.reverse_append, dropWhile_append_all _ (by
      intro c hc
      have := List.dropWhile_eq_nil_iff.mp h
      exact this c hc)]
  · rw [if_neg (by simp [h])]
    rw [List.reverse_append, dropWhile_append_ne_nil _ h, List.reverse_append,
      List.reverse_reverse]

/-- `rstrip` of an all-whitespace list is empty. -/
theorem rstrip_eq_nil_iff {s : List Char} :
    rstrip s = [] ↔ ∀ c ∈ s, isPySpace c = true := by
  unfold rstrip
  rw [List.reverse_eq_nil_iff, List.dropWhile_eq_nil_iff]
  constructor
  · intro h c hc; exact h c (by simp [hc])
  · intro h c hc; exact h c (by simpa using hc)

/-- `rstrip` is idempotent. -/
theorem rstrip_idem (s : List Char) : rstrip (rstrip s) = rstrip s := by
  unfold rstrip
  rw [List.reverse_reverse]
  cases h : List.dropWhile isPySpace s.reverse with
  | nil => simp
  | cons c t =>
    have hc : isPySpace c = false := by
      have := List.head?_dropWhile_not isPySpace s.reverse
      rw [h] at this; simpa using this
    rw [dropWhile_cons_neg _ hc]

/-- A list is its own `rstrip` followed by whitespace. -/
theorem rstrip_decomposition (s : List Char) :
    ∃ sp, s = rstrip s ++ sp ∧ ∀ c ∈ sp, isPySpace c = true := by
  refine ⟨(List.takeWhile isPySpace s.reverse).reverse, ?_, ?_⟩
  · conv_lhs => rw [← List.reverse_reverse s, ← List.takeWhile_append_dropWhile
      (p := isPySpace) (l := s.reverse)]
    rw [List.reverse_append]
    rfl
  · intro c hc
    rw [List.mem_reverse] at hc
    exact List.mem_takeWhile_imp hc

/-- `rstrip` leaves a list whose last element is not whitespace unchanged. -/
theorem rstrip_eq_self_of_last {s : List Char} {c : Char}
    (h : isPySpace c = false) : rstrip (s ++ [c]) = s ++ [c] := by
  unfold rstrip
  rw [List.reverse_append, List.reverse_singleton, List.singleton_append,
    dropWhile_cons_neg _ h]
  simp

/-- `joinNl` over a cons whose head is a cons. -/
theorem joinNl_cons_cons (c : Char) (l : List Char) (ls : List (List Char)) :
    joinNl ((c :: l) :: ls) = c :: joinNl (l :: ls) := by
  cases ls with
  | nil => simp [joinNl]
  | cons x xs => simp [joinNl]

/-- `pySplitlines` of the empty list. -/
theorem ps_nil : pySplitlines [] = [] := rfl

/-- `pySplitlines` of a lone carriage return. -/
theorem ps_cr_nil : pySplitlines [Char.ofNat 13] = [[]] := by
  rw [pySplitlines.eq_def]; simp

/-- `pySplitlines` consumes a `\r\n` pair as a single boundary. -/
theorem ps_crlf (rest : List Char) :
    pySplitlines (Char.ofNat 13 :: Char.ofNat 10 :: rest) = [] :: pySplitlines rest := by
  rw [pySplitlines.eq_def]; simp

/-- `pySplitlines` after `\r` followed by a non-`\n` character. -/
theorem ps_cr_other {d : Char} (hd : ¬ d = Char.ofNat 10) (rest : List Char) :
    pySplitlines (Char.ofNat 13 :: d :: rest) = [] :: pySplitlines (d :: rest) := by
  rw [pySplitlines.eq_def]; simp [hd]

/-- `pySplitlines` after a non-`\r` boundary character. -/
theorem ps_boundary_cons {c : Char} (h13 : ¬ c = Char.ofNat 13)
    (hb : isLineBoundary c = true) (t : List Char) :
    pySplitlines (c :: t) = [] :: pySplitlines t := by
  rw [pySplitlines.eq_def]; simp [h13, hb]

/-- `pySplitlines` after a leading `\n`. -/
theorem ps_cons_nl (t : List Char) :
    pySplitlines ('\n' :: t) = [] :: pySplitlines t := by
  exact ps_boundary_cons (by decide) (by decide) t

/-- A leading non-boundary character, tail splitting to nothing. -/
theorem ps_cons_bf_nil {c : Char} (hc : isLineBoundary c = false) {t : List Char}
    (h : pySplitlines t = []) : pySplitlines (c :: t) = [[c]] := by
  have h13 : ¬ c = Char.ofNat 13 := by
    intro he; subst he; simp [isLineBoundary] at hc
  rw [pySplitlines.eq_def]
  simp [h13, hc, h]

/-- A leading non-boundary character joins the first line of the tail. -/
theorem ps_cons_bf_cons {c : Char} (hc : isLineBoundary c = false) {t : List Char}
    {x : List Char} {xs : List (List Char)} (h : pySplitlines t = x :: xs) :
    pySplitlines (c :: t) = (c :: x) :: xs := by
  have h13 : ¬ c = Char.ofNat 13 := by
    intro he; subst he; simp [isLineBoundary] at hc
  rw [pySplitlines.eq_def]
  simp [h13, hc, h]

/-- `pySplitlines` is empty exactly on the empty list. -/
theorem ps_eq_nil_iff {t : List Char} : pySplitlines t = [] ↔ t = [] := by
  constructor
  · intro h
    by_contra hne
    cases t with
    | nil => exact hne rfl
    | cons c rest =>
      by_cases h13 : c = Char.ofNat 13
      · subst h13
        cases rest with
        | nil => rw [ps_cr_nil] at h; simp at h
        | cons d rest2 =>
          by_cases h10 : d = Char.ofNat 10
          · subst h10; rw [ps_crlf] at h; simp at h
          · rw [ps_cr_other h10] at h; simp at h
      · by_cases hb : isLineBoundary c = true
        · rw [ps_boundary_cons h13 hb] at h; simp at h
        · replace hb : isLineBoundary c = false := by simpa using hb
          rcases hps : pySplitlines rest with _ | ⟨x, xs⟩
          · rw [ps_cons_bf_nil hb hps] at h; simp at h
          · rw [ps_cons_bf_cons hb hps] at h; simp at h
  · intro h; subst h; rfl

/-- Every line produced by `pySplitlines` is free of line boundaries. -/
theorem ps_lines_bf :
    ∀ t : List Char, ∀ l ∈ pySplitlines t, ∀ c ∈ l, isLineBoundary c = false := by
  intro t
  induction t using pySplitlines.induct with
  | case1 => simp [ps_nil]
  | case2 =>
    intro l hl c hc
    rw [ps_cr_nil] at hl
    simp only [List.mem_singleton] at hl
    subst hl; simp at hc
  | case3 rest2 ih =>
    intro l hl c hc
    rw [ps_crlf] at hl
    rcases List.mem_cons.mp hl with h | h
    · subst h; simp at hc
    · exact ih l h c hc
  | case4 d rest2 hd ih =>
    intro l hl c hc
    rw [ps_cr_other hd] at hl
    rcases List.mem_cons.mp hl with h | h
    · subst h; simp at hc
    · exact ih l h c hc
  | case5 d rest2 h13 hb ih =>
    intro l hl c hc
    rw [ps_boundary_cons h13 hb] at hl
    rcases List.mem_cons.mp hl with h | h
    · subst h; simp at hc
    · exact ih l h c hc
  | case6 d rest2 h13 hb hps ih =>
    intro l hl c hc
    replace hb : isLineBoundary d = false := by simpa using hb
    rw [ps_cons_bf_nil hb hps] at hl
    simp only [List.mem_singleton] at hl
    subst hl
    simp only [List.mem_singleton] at hc
    subst hc
    exact hb
  | case7 d rest2 h13 hb x xs hps ih =>
    intro l hl c hc
    replace hb : isLineBoundary d = false := by simpa using hb
    rw [ps_cons_bf_cons hb hps] at hl
    rcases List.mem_cons.mp hl with h | h
    · subst h
      rcases List.mem_cons.mp hc with h2 | h2
      · subst h2; exact hb
      · exact ih x (by simp [hps]) c h2
    · exact ih l (by simp [hps, h]) c hc

/-- Splitting distributes over a boundary-free line joined by `\n`. -/
theorem ps_append_nl {l : List Char} (rest : List Char)
    (h : ∀ c ∈ l, isLineBoundary c = false) :
    pySplitlines (l ++ '\n' :: rest) = l :: pySplitlines rest := by
  induction l with
  | nil => simpa using ps_cons_nl rest
  | cons c t ih =>
    have hc : isLineBoundary c = false := h c (by simp)
    have ht : ∀ x ∈ t, isLineBoundary x = false := fun x hx => h x (by simp [hx])
    rw [List.cons_append, ps_cons_bf_cons hc (ih ht)]

/-- Round trip: splitting the join of nonempty boundary-free lines recovers
the lines. -/
theorem ps_joinNl {ls : List (List Char)} (hne : ls ≠ [])
    (hbf : ∀ l ∈ ls, ∀ c ∈ l, isLineBoundary c = false) :
    pySplitlines (joinNl ls ++ ['\n']) = ls := by
  induction ls with
  | nil => simp at hne
  | cons l t ih =>
    cases t with
    | nil =>
      simp only [joinNl]
      have : l ++ ['\n'] = l ++ '\n' :: [] := rfl
      rw [this, ps_append_nl [] (hbf l (by simp)), ps_nil]
    | cons x xs =>
      have hj : joinNl (l :: x :: xs) = l ++ '\n' :: joinNl (x :: xs) := rfl
      rw [hj, List.append_assoc, List.cons_append,
        ps_append_nl (joinNl (x :: xs) ++ ['\n']) (hbf l (by simp)),
        ih (by simp) (fun a ha c hc => hbf a (by simp [ha]) c hc)]

/-- `joinNl` of a cons with a nonempty tail. -/
theorem joinNl_cons_ne (x : List Char) {ys : List (List Char)} (h : ys ≠ []) :
    joinNl (x :: ys) = x ++ '\n' :: joinNl ys := by
  cases ys with
  | nil => exact absurd rfl h
  | cons a b => rfl

/-- For input whose line boundaries are all `\n`, joining the split lines and
appending `\n` returns the input, adding a final `\n` only when absent. -/
theorem joinNl_ps_newline (text : List Char)
    (h : ∀ c ∈ text, isLineBoundary c = true → c = '\n') :
    joinNl (pySplitlines text) ++ ['\n'] =
      if text.getLast? = some '\n' then text else text ++ ['\n'] := by
  induction text with
  | nil => simp [ps_nil, joinNl]
  | cons c t ih =>
    have ih' := ih (fun a ha hb => h a (by simp [ha]) hb)
    by_cases hc : c = '\n'
    · subst hc
      rw [ps_cons_nl]
      cases ht : pySplitlines t with
      | nil =>
        have ht' : t = [] := ps_eq_nil_iff.mp ht
        subst ht'
        simp [joinNl]
      | cons x xs =>
        have htne : t ≠ [] := by
          intro he; subst he; rw [ps_nil] at ht; exact List.noConfusion ht
        rw [← ht, joinNl_cons_ne [] (by rw [ht]; simp), List.nil_append,
          List.cons_append, ih']
        have hlast : ('\n' :: t).getLast? = t.getLast? := by
          cases t with
          | nil => exact absurd rfl htne
          | cons a b => exact List.getLast?_cons_cons
        rw [hlast]
        split <;> simp
    · have hb : isLineBoundary c = false := by
        cases hcb : isLineBoundary c with
        | false => rfl
        | true => exact absurd (h c (by simp) hcb) hc
      cases ht : pySplitlines t with
      | nil =>
        have ht' : t = [] := ps_eq_nil_iff.mp ht
        subst ht'
        rw [ps_cons_bf_nil hb ht]
        simp only [joinNl, List.getLast?_singleton]
        rw [if_neg (by simp [hc])]
      | cons x xs =>
        have htne : t ≠ [] := by
          intro he; subst he; rw [ps_nil] at ht; exact List.noConfusion ht
        rw [ps_cons_bf_cons hb ht, joinNl_cons_cons, ← ht, List.cons_append, ih']
        have hlast : (c :: t).getLast? = t.getLast? := by
          cases t with
          | nil => exact absurd rfl htne
          | cons a b => exact List.getLast?_cons_cons
        rw [hlast]
        split <;> simp

/-- For input whose line boundaries are all `\n`, splitting and joining
preserves the `rstrip`. -/
theorem rstrip_joinNl_ps (text : List Char)
    (h : ∀ c ∈ text, isLineBoundary c = true → c = '\n') :
    rstrip (joinNl (pySplitlines text)) = rstrip text := by
  have hJ := joinNl_ps_newline text h
  by_cases hl : text.getLast? = some '\n'
  · rw [if_pos hl] at hJ
    have h2 : rstrip (joinNl (pySplitlines text) ++ ['\n']) = rstrip text := by
      rw [hJ]
    rw [rstrip_append] at h2
    rw [if_pos (by decide)] at h2
    exact h2
  · rw [if_neg hl] at hJ
    rw [List.append_cancel_right hJ]

/-- `joinNl` over an appended final line, for a nonempty prefix. -/
theorem joinNl_append_singleton {ls : List (List Char)} (h : ls ≠ []) (x : List Char) :
    joinNl (ls ++ [x]) = joinNl ls ++ '\n' :: x := by
  induction ls with
  | nil => exact absurd rfl h
  | cons a b ih =>
    cases b with
    | nil => rfl
    | cons c d =>
      rw [List.cons_append, joinNl_cons_ne _ (by simp), ih (by simp),
        joinNl_cons_ne a (by simp)]
      simp

/-- `rstrip` of a cons of `\n`. -/
theorem rstrip_nl_cons (l : List Char) :
    rstrip ('\n' :: l) = if rstrip l = [] then [] else '\n' :: rstrip l := by
  rw [show ('\n' :: l) = ['\n'] ++ l from rfl, rstrip_append]
  split
  · decide
  · rfl

/-- `rstrip` of a `\n`-join is the join of the `rstrip`-normalized lines. -/
theorem rstrip_joinNl (ls : List (List Char)) :
    rstrip (joinNl ls) = joinNl (rstripLines ls) := by
  induction ls using List.reverseRecOn with
  | nil => rfl
  | append_singleton ls l ih =>
    by_cases hblank : rstrip l = []
    · have hall : l.all isPySpace = true :=
        List.all_eq_true.mpr (rstrip_eq_nil_iff.mp hblank)
      have hrl : rstripLines (ls ++ [l]) = rstripLines ls := by
        unfold rstripLines
        rw [List.reverse_append, List.reverse_singleton, List.singleton_append,
          List.dropWhile_cons, if_pos hall]
      rw [hrl, ← ih]
      cases hls : ls with
      | nil =>
        simp only [List.nil_append, joinNl]
        exact hblank
      | cons a b =>
        rw [← hls, joinNl_append_singleton (by rw [hls]; simp), rstrip_append,
          rstrip_nl_cons, if_pos hblank, if_pos rfl]
    · have hall : l.all isPySpace = false := by
        cases hq : l.all isPySpace with
        | false => rfl
        | true =>
          exact absurd (rstrip_eq_nil_iff.mpr (List.all_eq_true.mp hq)) hblank
      have hrl : rstripLines (ls ++ [l]) = ls ++ [rstrip l] := by
        unfold rstripLines
        rw [List.reverse_append, List.reverse_singleton, List.singleton_append,
          List.dropWhile_cons, if_neg (by simp [hall])]
        simp
      rw [hrl]
      cases hls : ls with
      | nil =>
        simp only [List.nil_append, joinNl]
      | cons a b =>
        rw [← hls, joinNl_append_singleton (by rw [hls]; simp), rstrip_append,
          rstrip_nl_cons, if_neg hblank, if_neg (by simp),
          joinNl_append_singleton (by rw [hls]; simp)]

/-- Every line of `rstripLines ls` is a line of `ls` or the `rstrip` of one. -/
theorem rstripLines_mem {ls : List (List Char)} {l : List Char}
    (h : l ∈ rstripLines ls) : l ∈ ls ∨ ∃ x ∈ ls, l = rstrip x := by
  unfold rstripLines at h
  rcases hd : ls.reverse.dropWhile (fun l => l.all isPySpace) with _ | ⟨x, rest⟩
  · rw [hd] at h; simp at h
  · rw [hd] at h
    rw [List.mem_reverse, List.mem_cons] at h
    have hsub : x :: rest ∈ [ls.reverse] → True := fun _ => trivial
    have hx : x ∈ ls := by
      rw [← List.mem_reverse]
      exact (List.dropWhile_sublist _).mem (hd ▸ List.mem_cons_self x rest)
    rcases h with h | h
    · right; exact ⟨x, hx, h⟩
    · left
      rw [← List.mem_reverse]
      exact (List.dropWhile_sublist _).mem (hd ▸ List.mem_cons_of_mem x h)

/-! ### Lemmas about `matchKey`, `processLine` and `formatEnvLines` -/

/-- A generic map-identity helper. -/
theorem map_eq_self_of {α : Type} {f : α → α} :
    ∀ {l : List α}, (∀ x ∈ l, f x = x) → l.map f = l := by
  intro l h
  induction l with
  | nil => rfl
  | cons a t ih =>
    simp only [List.map_cons, h a (by simp), List.cons_inj_right]
    exact ih (fun x hx => h x (by simp [hx]))

/-- `keyMem` is list membership. -/
theorem keyMem_iff {k : List Char} : ∀ {ks : List (List Char)},
    keyMem k ks = true ↔ k ∈ ks := by
  intro ks
  induction ks with
  | nil => simp [keyMem]
  | cons x xs ih =>
    unfold keyMem
    by_cases he : x = k
    · subst he; simp
    · rw [if_neg he, ih, List.mem_cons]
      constructor
      · exact Or.inr
      · rintro (h | h)
        · exact absurd h.symm he
        · exact h

/-- A successful lookup returns a pair of the dict. -/
theorem lookupKV_mem : ∀ {d : EnvDict} {k v : List Char},
    lookupKV d k = some v → (k, v) ∈ d := by
  intro d
  induction d with
  | nil => intro k v h; exact Option.noConfusion h
  | cons kv rest ih =>
    intro k v h
    unfold lookupKV at h
    split at h
    · rename_i he
      injection h with h2
      have : kv = (k, v) := by
        obtain ⟨a, b⟩ := kv
        simp only at he h2
        simp [he, h2]
      rw [← this]
      exact List.mem_cons_self kv rest
    · exact List.mem_cons_of_mem _ (ih h)

/-- With duplicate-free keys, lookup finds a member pair. -/
theorem lookupKV_of_mem_nodup : ∀ {d : EnvDict} {k v : List Char},
    (k, v) ∈ d → (d.map Prod.fst).Nodup → lookupKV d k = some v := by
  intro d
  induction d with
  | nil => intro k v hm _; simp at hm
  | cons kv rest ih =>
    intro k v hm hnd
    rw [List.map_cons, List.nodup_cons] at hnd
    obtain ⟨hk1, hk2⟩ := hnd
    rcases List.mem_cons.mp hm with h | h
    · subst h
      unfold lookupKV
      rw [if_pos rfl]
    · unfold lookupKV
      by_cases he : kv.1 = k
      · exfalso
        apply hk1
        rw [he]
        exact List.mem_map.mpr ⟨(k, v), h, rfl⟩
      · rw [if_neg he]
        exact ih h hk2

/-- All characters of a key token are key characters. -/
theorem isKeyToken_all_keyChar {k : List Char} (h : isKeyToken k = true) :
    ∀ c ∈ k, keyChar c = true := by
  cases k with
  | nil => simp
  | cons c rest =>
    simp only [isKeyToken, Bool.and_eq_true, List.all_eq_true] at h
    obtain ⟨hstart, hall⟩ := h
    intro x hx
    rcases List.mem_cons.mp hx with h | h
    · subst h; simp [keyChar, hstart]
    · exact hall x h

/-- The key produced by `matchKey` is a key token. -/
theorem matchKey_token {l k : List Char} (h : matchKey l = some k) :
    isKeyToken k = true := by
  simp only [matchKey] at h
  split at h
  · rename_i hc
    injection h with h3
    subst h3
    exact hc.1
  · exact Option.noConfusion h

/-- `matchKey` of the empty line. -/
theorem matchKey_nil : matchKey [] = none := by decide

/-- `matchKey` of the marker comment fails. -/
theorem matchKey_envMarker : matchKey envMarker = none := by decide

/-- A rewritten line `k="v"` matches with key `k` again, for any token `k`. -/
theorem matchKey_kvLine {k : List Char} (hk : isKeyToken k = true) (v : List Char) :
    matchKey (kvLine k v) = some k := by
  have hall : ∀ c ∈ k, keyChar c = true := isKeyToken_all_keyChar hk
  cases k with
  | nil => simp [isKeyToken] at hk
  | cons c rest =>
    have hcs : isPySpace c = false := keyChar_not_space (hall c (by simp))
    simp only [matchKey, kvLine]
    rw [List.cons_append, dropWhile_cons_neg _ hcs, ← List.cons_append,
      takeWhile_append_all _ hall,
      show List.takeWhile keyChar ('=' :: dquote :: (v ++ [dquote])) = [] from by
        rw [List.takeWhile_cons, if_neg (by decide)],
      List.append_nil, List.drop_left, dropWhile_cons_neg _ (by decide)]
    rw [if_pos ⟨hk, rfl⟩]

/-- `processLine` on a matching line with a key in the dict. -/
theorem processLine_match {d : EnvDict} {l k v : List Char}
    (hm : matchKey l = some k) (hv : lookupKV d k = some v) :
    processLine d l = kvLine k v := by
  simp [processLine, hm, hv]

/-- `processLine` on a matching line with a key not in the dict. -/
theorem processLine_match_none {d : EnvDict} {l k : List Char}
    (hm : matchKey l = some k) (hv : lookupKV d k = none) :
    processLine d l = l := by
  simp [processLine, hm, hv]

/-- `processLine` on a non-matching line. -/
theorem processLine_nomatch {d : EnvDict} {l : List Char}
    (hm : matchKey l = none) : processLine d l = l := by
  simp [processLine, hm]

/-- `processLine` is idempotent. -/
theorem processLine_idem (d : EnvDict) (l : List Char) :
    processLine d (processLine d l) = processLine d l := by
  cases hm : matchKey l with
  | none =>
    rw [processLine_nomatch hm]
    exact processLine_nomatch hm
  | some k =>
    cases hv : lookupKV d k with
    | none =>
      rw [processLine_match_none hm hv]
      exact processLine_match_none hm hv
    | some v =>
      rw [processLine_match hm hv]
      exact processLine_match (matchKey_kvLine (matchKey_token hm) v) hv

/-- Characters of a key token are not line boundaries. -/
theorem isKeyToken_bf {k : List Char} (hk : isKeyToken k = true) :
    ∀ c ∈ k, isLineBoundary c = false :=
  fun c hc => keyChar_not_boundary (isKeyToken_all_keyChar hk c hc)

/-- `kvLine` is boundary-free when its key and value are. -/
theorem kvLine_bf {k v : List Char}
    (hk : ∀ c ∈ k, isLineBoundary c = false)
    (hv : ∀ c ∈ v, isLineBoundary c = false) :
    ∀ c ∈ kvLine k v, isLineBoundary c = false := by
  intro c hc
  unfold kvLine at hc
  rw [List.mem_append] at hc
  rcases hc with h | h
  · exact hk c h
  · rcases List.mem_cons.mp h with h2 | h2
    · subst h2; decide
    · rcases List.mem_cons.mp h2 with h3 | h3
      · subst h3; decide
      · rw [List.mem_append] at h3
        rcases h3 with h4 | h4
        · exact hv c h4
        · rcases List.mem_singleton.mp h4 with h5
          subst h5; decide

/-- The marker comment is boundary-free. -/
theorem envMarker_bf : ∀ c ∈ envMarker, isLineBoundary c = false := by decide

/-- `processLine` preserves boundary-freeness, given boundary-free dict
values. -/
theorem processLine_bf {d : EnvDict} {l : List Char}
    (hl : ∀ c ∈ l, isLineBoundary c = false)
    (hv : ∀ kv ∈ d, ∀ c ∈ kv.2, isLineBoundary c = false) :
    ∀ c ∈ processLine d l, isLineBoundary c = false := by
  cases hm : matchKey l with
  | none => rw [processLine_nomatch hm]; exact hl
  | some k =>
    cases hlk : lookupKV d k with
    | none => rw [processLine_match_none hm hlk]; exact hl
    | some v =>
      rw [processLine_match hm hlk]
      exact kvLine_bf (isKeyToken_bf (matchKey_token hm))
        (hv (k, v) (lookupKV_mem hlk))

/-- All output lines of `formatEnvLines` are boundary-free when the input
lines and the dict's keys and values are. -/
theorem formatEnvLines_bf {d : EnvDict} {lines : List (List Char)}
    (hk : ∀ kv ∈ d, ∀ c ∈ kv.1, isLineBoundary c = false)
    (hv : ∀ kv ∈ d, ∀ c ∈ kv.2, isLineBoundary c = false)
    (hl : ∀ l ∈ lines, ∀ c ∈ l, isLineBoundary c = false) :
    ∀ l ∈ formatEnvLines d lines, ∀ c ∈ l, isLineBoundary c = false := by
  intro l hmem
  simp only [formatEnvLines] at hmem
  have hmap : ∀ l ∈ lines.map (processLine d), ∀ c ∈ l, isLineBoundary c = false := by
    intro x hx
    rcases List.mem_map.mp hx with ⟨y, hy, hxy⟩
    subst hxy
    exact processLine_bf (hl y hy) hv
  split at hmem
  · exact hmap l hmem
  · rw [List.append_assoc, List.mem_append] at hmem
    rcases hmem with h | h
    · exact hmap l h
    · rcases List.mem_cons.mp h with h2 | h2
      · subst h2; simp
      · rcases List.mem_cons.mp h2 with h3 | h3
        · subst h3; exact envMarker_bf
        · rcases List.mem_map.mp h3 with ⟨kv, hkv, hl2⟩
          subst hl2
          have hkvd : kv ∈ d := (List.mem_filter.mp hkv).1
          exact kvLine_bf (hk kv hkvd) (hv kv hkvd)

/-- `formatEnvLines` only returns no lines for no input lines and no updates. -/
theorem formatEnvLines_ne_nil {d : EnvDict} {lines : List (List Char)}
    (h0 : ¬(lines = [] ∧ d = [])) : formatEnvLines d lines ≠ [] := by
  simp only [formatEnvLines]
  split
  · rename_i hcase
    intro hmap
    rw [List.map_eq_nil_iff] at hmap
    subst hmap
    have hfilter : d.filter (fun kv => !(keyMem kv.1 (List.filterMap matchKey []))) = d :=
      List.filter_eq_self.mpr (fun kv _ => rfl)
    rw [hfilter] at hcase
    exact h0 ⟨rfl, List.isEmpty_iff.mp hcase⟩
  · intro happ
    rw [List.append_assoc] at happ
    rcases List.append_eq_nil.mp happ with ⟨_, h2⟩
    exact List.noConfusion h2

/-! ### Claim C1 -/

/-- C1 counterexample: with updates `{A: 9}` and input `A=1\nA=2`, the code
rewrites *both* lines carrying key `A`; the later duplicate `A=2` is not
passed through byte-identical, contrary to the claim's predicted output
`A="9"\nA=2\n`. -/
theorem C1_counterexample :
    formatEnv [(("A").toList, ("9").toList)] ("A=1\nA=2").toList =
        ("A=\"9\"\nA=\"9\"\n").toList ∧
      formatEnv [(("A").toList, ("9").toList)] ("A=1\nA=2").toList ≠
        ("A=\"9\"\nA=2\n").toList := by
  constructor
  · decide
  · decide

/-- C1 (amended): in `_format_env` every matched key-value line whose key is
in the update dict — first occurrence or later duplicate alike — is rewritten
in place to `k="v"`; matched lines whose key is absent from the dict pass
through unchanged. -/
theorem C1_every_match_rewritten (d : EnvDict) (text : List Char) (i : Nat)
    (h : i < (pySplitlines text).length) (k : List Char)
    (hm : matchKey ((pySplitlines text).get ⟨i, h⟩) = some k) :
    (formatEnvLines d (pySplitlines text))[i]? =
      some (match lookupKV d k with
            | some v => kvLine k v
            | none => (pySplitlines text).get ⟨i, h⟩) := by
  have hmap : (List.map (processLine d) (pySplitlines text))[i]? =
      some (processLine d ((pySplitlines text).get ⟨i, h⟩)) := by
    rw [List.getElem?_map, List.getElem?_eq_getElem h]
    simp [List.get_eq_getElem]
  have hout : (formatEnvLines d (pySplitlines text))[i]? =
      some (processLine d ((pySplitlines text).get ⟨i, h⟩)) := by
    simp only [formatEnvLines]
    split
    · exact hmap
    · rw [List.append_assoc,
        List.getElem?_append_left (by simpa using h)]
      exact hmap
  rw [hout]
  congr 1
  cases hv : lookupKV d k with
  | none => exact processLine_match_none hm hv
  | some v => exact processLine_match hm hv

/-- C1 witness: the amended theorem evaluated at the duplicate-key input —
the second `A` line of `A=1\nA=2` is rewritten to `A="9"`. -/
theorem C1_witness :
    (formatEnvLines [(("A").toList, ("9").toList)]
        (pySplitlines ("A=1\nA=2").toList))[1]? = some (("A=\"9\"").toList) :=
  (C1_every_match_rewritten [(("A").toList, ("9").toList)]
    ("A=1\nA=2").toList 1 (by decide) ("A").toList (by decide)).trans (by decide)

/-! ### Claim C7 -/

/-- C7: after processing all lines, exactly the update keys that matched no
line are appended: one blank line, the marker comment, then one `k="v"` line
per missing key in the dict's iteration order; nothing is appended when no
key is missing. -/
theorem C7_append_missing (d : EnvDict) (text : List Char)
    (h0 : ¬(text = [] ∧ d = []))
    (hk : ∀ kv ∈ d, ∀ c ∈ kv.1, isLineBoundary c = false)
    (hv : ∀ kv ∈ d, ∀ c ∈ kv.2, isLineBoundary c = false) :
    pySplitlines (formatEnv d text) =
      (pySplitlines text).map (processLine d) ++
        (if (d.filter (fun kv =>
              !(keyMem kv.1 ((pySplitlines text).filterMap matchKey)))).isEmpty then
           []
         else
           [] :: envMarker ::
             (d.filter (fun kv =>
               !(keyMem kv.1 ((pySplitlines text).filterMap matchKey)))).map
               (fun kv => kvLine kv.1 kv.2)) := by
  have h0' : ¬(pySplitlines text = [] ∧ d = []) := by
    intro ⟨h1, h2⟩
    exact h0 ⟨ps_eq_nil_iff.mp h1, h2⟩
  unfold formatEnv
  rw [ps_joinNl (formatEnvLines_ne_nil h0')
    (formatEnvLines_bf hk hv (ps_lines_bf text))]
  simp only [formatEnvLines]
  split
  · simp
  · simp

/-- C7 witness: with updates `{A: 1, C: 3}` and input `A=1`, only `C` is
missing and the appended section is a blank line, the marker, and `C="3"`. -/
theorem C7_witness :
    pySplitlines (formatEnv [(("A").toList, ("1").toList), (("C").toList, ("3").toList)]
        ("A=1").toList) =
      [("A=\"1\"").toList, [], envMarker, ("C=\"3\"").toList] := by
  exact (C7_append_missing
    [(("A").toList, ("1").toList), (("C").toList, ("3").toList)]
    ("A=1").toList (by simp) (by decide) (by decide)).trans (by decide)

/-! ### Claim C3 -/

/-- Processed lines belong to the output of `formatEnvLines`. -/
theorem mem_map_formatEnvLines {d : EnvDict} {lines : List (List Char)}
    {l0 : List Char} (h : l0 ∈ lines) :
    processLine d l0 ∈ formatEnvLines d lines := by
  simp only [formatEnvLines]
  split
  · exact List.mem_map.mpr ⟨l0, h, rfl⟩
  · rw [List.append_assoc, List.mem_append]
    exact Or.inl (List.mem_map.mpr ⟨l0, h, rfl⟩)

/-- Every output line of `formatEnvLines` is a fixpoint of `processLine`,
for an update dict with duplicate-free token keys. -/
theorem formatEnvLines_fix {d : EnvDict} {lines : List (List Char)}
    (hnd : (d.map Prod.fst).Nodup) (htok : ∀ kv ∈ d, isKeyToken kv.1 = true) :
    ∀ l ∈ formatEnvLines d lines, processLine d l = l := by
  intro l hl
  simp only [formatEnvLines] at hl
  split at hl
  · rcases List.mem_map.mp hl with ⟨l0, _, rfl⟩
    exact processLine_idem d l0
  · rw [List.append_assoc, List.mem_append] at hl
    rcases hl with h | h
    · rcases List.mem_map.mp h with ⟨l0, _, rfl⟩
      exact processLine_idem d l0
    · rcases List.mem_cons.mp h with h2 | h2
      · subst h2
        exact processLine_nomatch matchKey_nil
      · rcases List.mem_cons.mp h2 with h3 | h3
        · subst h3
          exact processLine_nomatch matchKey_envMarker
        · rcases List.mem_map.mp h3 with ⟨kv, hkv, rfl⟩
          have hkvd : kv ∈ d := (List.mem_filter.mp hkv).1
          exact processLine_match (matchKey_kvLine (htok kv hkvd) kv.2)
            (lookupKV_of_mem_nodup hkvd hnd)

/-- After one pass of `_format_env`, every update key matches some output
line: the updated occurrence if one matched, the appended line otherwise. -/
theorem formatEnvLines_keys_present {d : EnvDict} {lines : List (List Char)}
    (hnd : (d.map Prod.fst).Nodup) (htok : ∀ kv ∈ d, isKeyToken kv.1 = true) :
    ∀ kv ∈ d, keyMem kv.1 ((formatEnvLines d lines).filterMap matchKey) = true := by
  intro kv hkv
  rw [keyMem_iff, List.mem_filterMap]
  by_cases hex : keyMem kv.1 (lines.filterMap matchKey) = true
  · rw [keyMem_iff, List.mem_filterMap] at hex
    obtain ⟨l0, hl0, hm0⟩ := hex
    refine ⟨processLine d l0, mem_map_formatEnvLines hl0, ?_⟩
    rw [processLine_match hm0 (lookupKV_of_mem_nodup hkv hnd)]
    exact matchKey_kvLine (htok kv hkv) kv.2
  · have hkvmiss : kv ∈ d.filter
        (fun kv => !(keyMem kv.1 (lines.filterMap matchKey))) :=
      List.mem_filter.mpr ⟨hkv, by simp [hex]⟩
    refine ⟨kvLine kv.1 kv.2, ?_, matchKey_kvLine (htok kv hkv) kv.2⟩
    simp only [formatEnvLines]
    have hne : ¬ (d.filter
        (fun kv => !(keyMem kv.1 (lines.filterMap matchKey)))).isEmpty = true := by
      intro hempty
      rw [List.isEmpty_iff] at hempty
      rw [hempty] at hkvmiss
      simp at hkvmiss
    rw [if_neg hne, List.append_assoc, List.mem_append]
    right
    simp only [List.cons_append, List.nil_append]
    exact List.mem_cons_of_mem _ (List.mem_cons_of_mem _
      (List.mem_map.mpr ⟨kv, hkvmiss, rfl⟩))

/-- A second pass of `_format_env`'s line transformation is the identity. -/
theorem formatEnvLines_idem (d : EnvDict) (lines : List (List Char))
    (hnd : (d.map Prod.fst).Nodup) (htok : ∀ kv ∈ d, isKeyToken kv.1 = true) :
    formatEnvLines d (formatEnvLines d lines) = formatEnvLines d lines := by
  have hfix : ∀ l ∈ formatEnvLines d lines, processLine d l = l :=
    formatEnvLines_fix hnd htok
  have hkeys := @formatEnvLines_keys_present d lines hnd htok
  generalize hX : formatEnvLines d lines = X at hfix hkeys ⊢
  simp only [formatEnvLines]
  have hmiss : d.filter (fun kv => !(keyMem kv.1 (X.filterMap matchKey))) = [] :=
    List.filter_eq_nil_iff.mpr (fun kv hkv => by simp [hkeys kv hkv])
  rw [hmiss]
  simp only [List.isEmpty_nil, if_true]
  exact map_eq_self_of hfix

/-- C3 counterexample: with update key `X Y` (not of key-token shape) the
appended line `X Y="1"` does not re-match on the second pass, so the marker
section is appended again and `render` is not idempotent as claimed for
arbitrary update sets. -/
theorem C3_counterexample :
    formatEnv [(("X Y").toList, ("1").toList)]
        (formatEnv [(("X Y").toList, ("1").toList)] []) ≠
      formatEnv [(("X Y").toList, ("1").toList)] [] := by
  decide

/-- C3 (amended): `render` is idempotent for every update set whose keys
match the key pattern `[A-Za-z_][A-Za-z0-9_]*`, whose keys are
duplicate-free, and whose values contain no line-boundary character. -/
theorem C3_idempotent (d : EnvDict) (text : List Char)
    (hnd : (d.map Prod.fst).Nodup)
    (htok : ∀ kv ∈ d, isKeyToken kv.1 = true)
    (hval : ∀ kv ∈ d, ∀ c ∈ kv.2, isLineBoundary c = false) :
    formatEnv d (formatEnv d text) = formatEnv d text := by
  by_cases hO : formatEnvLines d (pySplitlines text) = []
  · obtain ⟨h1, h2⟩ : pySplitlines text = [] ∧ d = [] := by
      by_contra hc
      exact formatEnvLines_ne_nil hc hO
    have htext : text = [] := ps_eq_nil_iff.mp h1
    subst htext; subst h2
    decide
  · have hbfO : ∀ l ∈ formatEnvLines d (pySplitlines text), ∀ c ∈ l,
        isLineBoundary c = false :=
      formatEnvLines_bf (fun kv hkv => isKeyToken_bf (htok kv hkv)) hval
        (ps_lines_bf text)
    unfold formatEnv
    rw [ps_joinNl hO hbfO, formatEnvLines_idem d _ hnd htok]

/-- C3 witness: the amended idempotence at a concrete run — updates
`{A: 1}` applied twice over input `B=2`. -/
theorem C3_witness :
    formatEnv [(("A").toList, ("1").toList)]
        (formatEnv [(("A").toList, ("1").toList)] ("B=2").toList) =
      formatEnv [(("A").toList, ("1").toList)] ("B=2").toList :=
  C3_idempotent _ _ (by decide) (by decide) (by decide)

/-! ### Claim C4 -/

/-- C4 counterexample: the comment-only input `#a\r#b` (two opaque lines
separated by a bare carriage return) is rewritten to `#a\n#b\n` — the interior
byte `\r` changes, which no trailing-newline normalization of the input can
produce. -/
theorem C4_counterexample :
    formatEnv [] ("#a\r#b").toList = ("#a\n#b\n").toList ∧
      ∀ n : Nat, formatEnv [] ("#a\r#b").toList ≠
        ("#a\r#b").toList ++ List.replicate n '\n' := by
  have h1 : formatEnv [] ("#a\r#b").toList = ("#a\n#b\n").toList := by decide
  refine ⟨h1, ?_⟩
  intro n hn
  rw [h1] at hn
  have hlen := congrArg List.length hn
  simp at hlen
  have hn1 : n = 1 := by omega
  subst hn1
  exact absurd hn (by decide)

/-- C4 (amended): for input whose line boundaries are all `\n` and whose
lines are all opaque, `render` with an empty update set returns the input
changed only by guaranteeing exactly one trailing newline: the input itself
when it already ends in `\n`, else the input plus one `\n`. -/
theorem C4_roundtrip (text : List Char)
    (hb : ∀ c ∈ text, isLineBoundary c = true → c = '\n')
    (hop : ∀ l ∈ pySplitlines text, matchKey l = none) :
    formatEnv [] text =
      if text.getLast? = some '\n' then text else text ++ ['\n'] := by
  unfold formatEnv
  have hlines : formatEnvLines [] (pySplitlines text) = pySplitlines text := by
    simp only [formatEnvLines, List.filter_nil, List.isEmpty_nil, if_true]
    exact map_eq_self_of (fun l hl => processLine_nomatch (hop l hl))
  rw [hlines, joinNl_ps_newline text hb]

/-- C4 witness: the amended round trip on a comment, an opaque line and a
blank line, ending in a newline. -/
theorem C4_witness :
    formatEnv [] ("# c\nx y\n\n").toList = ("# c\nx y\n\n").toList :=
  (C4_roundtrip ("# c\nx y\n\n").toList (by decide) (by decide)).trans (by decide)

/-! ### Lemmas about the Caddyfile block stripper -/

/-- `sumDelta` over nil. -/
theorem sumDelta_nil : sumDelta [] = 0 := rfl

/-- `sumDelta` over a cons. -/
theorem sumDelta_cons (b : List Char) (ls : List (List Char)) :
    sumDelta (b :: ls) = braceDelta b + sumDelta ls := by
  simp [sumDelta]

/-- `skipBlanks` of nil. -/
theorem skipBlanks_nil : skipBlanks [] = [] := rfl

/-- `skipBlanks` of a cons. -/
theorem skipBlanks_cons (l : List Char) (ls : List (List Char)) :
    skipBlanks (l :: ls) = if pyStrip l = [] then skipBlanks ls else l :: ls := rfl

/-- `stripLoop` of nil. -/
theorem stripLoop_nil : stripLoop [] = [] := by rw [stripLoop]

/-- `skipBlanks` drops a leading run of all-whitespace lines. -/
theorem skipBlanks_append {blanks : List (List Char)}
    (h : ∀ b ∈ blanks, pyStrip b = []) (rest : List (List Char)) :
    skipBlanks (blanks ++ rest) = skipBlanks rest := by
  induction blanks with
  | nil => rfl
  | cons b t ih =>
    rw [List.cons_append, skipBlanks_cons, if_pos (h b (by simp))]
    exact ih (fun x hx => h x (by simp [hx]))

/-- `skipBlanks` stops at the first non-blank line. -/
theorem skipBlanks_eq_self {rest : List (List Char)}
    (h : rest = [] ∨ pyStrip rest.headI ≠ []) : skipBlanks rest = rest := by
  cases rest with
  | nil => rfl
  | cons r rs =>
    rcases h with h | h
    · exact List.noConfusion h
    · rw [skipBlanks_cons, if_neg (by simpa using h)]

/-- The inner loop consumes exactly the block body when the running depth
stays positive inside and returns to zero at its last line, then skips
blanks in the remainder. -/
theorem consumeBlock_exact {body : List (List Char)} :
    ∀ (dep : Int) (tail : List (List Char)),
      (∀ i, i < body.length → 0 < dep + sumDelta (body.take i)) →
      dep + sumDelta body = 0 →
      consumeBlock dep (body ++ tail) = skipBlanks tail := by
  induction body with
  | nil =>
    intro dep tail hpre htot
    have hdep : dep = 0 := by simpa [sumDelta_nil] using htot
    subst hdep
    cases tail with
    | nil => rfl
    | cons l rest =>
      show consumeBlock 0 (l :: rest) = skipBlanks (l :: rest)
      unfold consumeBlock
      rw [if_neg (by norm_num)]
  | cons b body' ih =>
    intro dep tail hpre htot
    have hdep : 0 < dep := by simpa [sumDelta] using hpre 0 (by simp)
    rw [List.cons_append]
    show consumeBlock dep (b :: (body' ++ tail)) = skipBlanks tail
    unfold consumeBlock
    rw [if_pos hdep]
    apply ih
    · intro i hi
      have h2 := hpre (i + 1) (by simpa using Nat.succ_lt_succ hi)
      rw [List.take_succ_cons, sumDelta_cons] at h2
      linarith
    · rw [sumDelta_cons] at htot
      linarith

/-- The inner loop consumes everything to end-of-input when the running
depth never returns to zero. -/
theorem consumeBlock_all {body : List (List Char)} :
    ∀ dep : Int,
      (∀ i, i ≤ body.length → 0 < dep + sumDelta (body.take i)) →
      consumeBlock dep body = [] := by
  induction body with
  | nil => intro dep _; rfl
  | cons b body' ih =>
    intro dep h
    have hdep : 0 < dep := by simpa [sumDelta] using h 0 (by simp)
    unfold consumeBlock
    rw [if_pos hdep]
    apply ih
    intro i hi
    have h2 := h (i + 1) (by simpa using Nat.succ_le_succ hi)
    rw [List.take_succ_cons, sumDelta_cons] at h2
    linarith

/-- The outer scan at a header line. -/
theorem stripLoop_cons_header {l : List Char} {ls : List (List Char)}
    (h : isBlockHeader l = true) :
    stripLoop (l :: ls) = stripLoop (consumeBlock (braceDelta l) ls) := by
  rw [stripLoop]
  rw [if_pos h]

/-- The outer scan at a non-header line. -/
theorem stripLoop_cons_nonheader {l : List Char} {ls : List (List Char)}
    (h : isBlockHeader l = false) :
    stripLoop (l :: ls) = l :: stripLoop ls := by
  rw [stripLoop]
  simp [h]

/-- The inner loop with non-positive depth goes straight to blank skipping. -/
theorem consumeBlock_nonpos {d : Int} (hd : ¬ 0 < d) (ls : List (List Char)) :
    consumeBlock d ls = skipBlanks ls := by
  cases ls with
  | nil => rfl
  | cons l rest =>
    unfold consumeBlock
    rw [if_neg hd]

/-- The inner loop, one line at a time. -/
theorem consumeBlock_cons (d : Int) (l : List Char) (rest : List (List Char)) :
    consumeBlock d (l :: rest) =
      if 0 < d then consumeBlock (d + braceDelta l) rest
      else skipBlanks (l :: rest) := rfl

/-- The single-pass scan agrees with the nested-loop scan in every state. -/
theorem stripGo_eq : ∀ (ls : List (List Char)) (m : Option Int),
    stripGo m ls =
      (match m with
       | none => stripLoop ls
       | some d => stripLoop (consumeBlock d ls)) := by
  intro ls
  induction ls with
  | nil =>
    intro m
    cases m with
    | none => exact stripLoop_nil.symm
    | some d =>
      show ([] : List (List Char)) = stripLoop (consumeBlock d [])
      rw [show consumeBlock d [] = [] from rfl, stripLoop_nil]
  | cons l t ih =>
    intro m
    have ihn : stripGo none t = stripLoop t := ih none
    have ihs : ∀ d' : Int, stripGo (some d') t = stripLoop (consumeBlock d' t) :=
      fun d' => ih (some d')
    cases m with
    | none =>
      show stripGo none (l :: t) = stripLoop (l :: t)
      by_cases hh : isBlockHeader l = true
      · simp only [stripGo, if_pos hh]
        rw [ihs (braceDelta l), stripLoop_cons_header hh]
      · replace hh : isBlockHeader l = false := by simpa using hh
        simp only [stripGo, hh, Bool.false_eq_true, if_false]
        rw [ihn, stripLoop_cons_nonheader hh]
    | some d =>
      show stripGo (some d) (l :: t) = stripLoop (consumeBlock d (l :: t))
      by_cases hd : 0 < d
      · simp only [stripGo, if_pos hd]
        rw [ihs (d + braceDelta l), consumeBlock_cons, if_pos hd]
      · rw [consumeBlock_cons, if_neg hd, skipBlanks_cons]
        by_cases hb : pyStrip l = []
        · simp only [stripGo, if_neg hd, if_pos hb]
          rw [ihs d, consumeBlock_nonpos hd]
        · rw [if_neg hb]
          by_cases hh : isBlockHeader l = true
          · simp only [stripGo, if_neg hd, if_neg hb, if_pos hh]
            rw [ihs (braceDelta l), stripLoop_cons_header hh]
          · replace hh : isBlockHeader l = false := by simpa using hh
            simp only [stripGo, if_neg hd, if_neg hb, hh, Bool.false_eq_true,
              if_false]
            rw [ihn, stripLoop_cons_nonheader hh]

/-- The copy-mode single pass is the nested-loop scan. -/
theorem stripGo_none_eq (ls : List (List Char)) : stripGo none ls = stripLoop ls :=
  stripGo_eq ls none

/-- `stripS3` through the structurally recursive scan, for evaluation. -/
theorem stripS3_go (t : List Char) :
    stripS3 t = rstrip (joinNl (stripGo none (pySplitlines t))) ++ ['\n'] := by
  unfold stripS3
  rw [stripGo_none_eq]

/-- With no header line present, the scan is the identity. -/
theorem stripLoop_no_op {ls : List (List Char)}
    (h : ∀ l ∈ ls, isBlockHeader l = false) : stripLoop ls = ls := by
  induction ls with
  | nil => exact stripLoop_nil
  | cons l t ih =>
    rw [stripLoop_cons_nonheader (h l (by simp)), ih (fun x hx => h x (by simp [hx]))]

/-- Every retained line of the scan is a line of the input. -/
theorem stripLoop_subset : ∀ (ls : List (List Char)), ∀ l ∈ stripLoop ls, l ∈ ls := by
  intro ls
  induction ls using stripLoop.induct with
  | case1 => rw [stripLoop_nil]; simp
  | case2 l t hh ih =>
    intro x hx
    rw [stripLoop_cons_header hh] at hx
    have hcons : x ∈ consumeBlock (braceDelta l) t := ih x hx
    have hsk : ∀ d ls', (consumeBlock d ls' : List (List Char)).Sublist ls' := by
      intro d ls'
      induction ls' generalizing d with
      | nil => simp [consumeBlock]
      | cons a b ihc =>
        unfold consumeBlock
        split
        · exact (ihc _).trans (List.sublist_cons_self a b)
        · have : ∀ m : List (List Char), (skipBlanks m).Sublist m := by
            intro m
            induction m with
            | nil => simp [skipBlanks]
            | cons p q ihq =>
              unfold skipBlanks
              split
              · exact ihq.trans (List.sublist_cons_self p q)
              · exact List.Sublist.refl _
          exact this _
    exact List.mem_cons_of_mem _ ((hsk (braceDelta l) t).mem hcons)
  | case3 l t hh ih =>
    intro x hx
    rw [stripLoop_cons_nonheader (by simpa using hh)] at hx
    rcases List.mem_cons.mp hx with h | h
    · simp [h]
    · exact List.mem_cons_of_mem _ (ih x h)

/-- No retained line of the scan is a header line. -/
theorem stripLoop_no_header : ∀ (ls : List (List Char)), ∀ l ∈ stripLoop ls,
    isBlockHeader l = false := by
  intro ls
  induction ls using stripLoop.induct with
  | case1 => rw [stripLoop_nil]; simp
  | case2 l t hh ih =>
    intro x hx
    rw [stripLoop_cons_header hh] at hx
    exact ih x hx
  | case3 l t hh ih =>
    intro x hx
    rw [stripLoop_cons_nonheader (by simpa using hh)] at hx
    rcases List.mem_cons.mp hx with h | h
    · subst h; simpa using hh
    · exact ih x h

/-! ### Claim C5 -/

/-- C5: a matched header starts a removed block: the header line is dropped,
body lines are consumed by brace counting until the cumulative depth returns
to zero — nested inner braces keep the depth positive, so the block is
removed as one unit without stopping at the first inner `}` — the closing
line is dropped too, and the immediately following blank lines are dropped
as well. -/
theorem C5_block_removal (l : List Char) (body blanks rest : List (List Char))
    (hh : isBlockHeader l = true)
    (hpre : ∀ i, i < body.length → 0 < braceDelta l + sumDelta (body.take i))
    (htot : braceDelta l + sumDelta body = 0)
    (hblanks : ∀ b ∈ blanks, pyStrip b = [])
    (hrest : rest = [] ∨ pyStrip rest.headI ≠ []) :
    stripLoop (l :: (body ++ (blanks ++ rest))) = stripLoop rest := by
  rw [stripLoop_cons_header hh, consumeBlock_exact _ _ hpre htot,
    skipBlanks_append hblanks, skipBlanks_eq_self hrest]

/-- C5 witness: a block with a nested inner brace pair, one trailing blank
line, and a following line — the whole block and the blank are removed. -/
theorem C5_witness :
    stripLoop [("s3.a \x7b").toList, ("inner \x7b").toList, ("\x7d").toList,
        ("\x7d").toList, (" ").toList, ("tail").toList] =
      stripLoop [("tail").toList] :=
  C5_block_removal ("s3.a \x7b").toList
    [("inner \x7b").toList, ("\x7d").toList, ("\x7d").toList]
    [(" ").toList] [("tail").toList]
    (by decide) (by decide) (by decide) (by decide) (by decide)

/-! ### Claim C6 -/

/-- C6 counterexample: the retained half of the claim fails when an
unterminated non-matching block contains an interior line that itself
matches the removal header.  On `example.com {` followed by the interior
line `  s3.x {`, the scan keeps no depth across retained lines, treats the
interior line as a block start and discards it to end-of-input: the output
is `example.com {\n`, not the full retention `example.com {\n  s3.x {\n`
the claim predicts. -/
theorem C6_counterexample :
    stripS3 ("example.com \x7b\n  s3.x \x7b").toList =
        ("example.com \x7b\n").toList ∧
      stripS3 ("example.com \x7b\n  s3.x \x7b").toList ≠
        ("example.com \x7b\n  s3.x \x7b\n").toList := by
  rw [stripS3_go]
  constructor
  · decide
  · decide

/-- C6 (amended): an unterminated block raises no error: when a matched
header opens a block whose depth never returns to zero, the scan discards
everything through the last line; and an unterminated block whose lines
never match the removal header is fully retained — full retention holds
only when no line of the block matches, since an interior matching line
starts a removed block regardless of surrounding nesting. -/
theorem C6_unterminated (l : List Char) (body : List (List Char)) :
    (isBlockHeader l = true →
      (∀ i, i ≤ body.length → 0 < braceDelta l + sumDelta (body.take i)) →
      stripLoop (l :: body) = []) ∧
    ((∀ x ∈ l :: body, isBlockHeader x = false) →
      stripLoop (l :: body) = l :: body) := by
  constructor
  · intro hh hpos
    rw [stripLoop_cons_header hh, consumeBlock_all _ hpos]
    exact stripLoop_nil
  · intro hnh
    exact stripLoop_no_op hnh

/-- C6 witness: a matched unterminated block is fully discarded; an
unmatched unterminated block is fully retained. -/
theorem C6_witness :
    stripLoop [("s3.a \x7b").toList, ("x \x7b").toList] = [] ∧
      stripLoop [("example.com \x7b").toList, ("x").toList] =
        [("example.com \x7b").toList, ("x").toList] :=
  ⟨(C6_unterminated ("s3.a \x7b").toList [("x \x7b").toList]).1 (by decide) (by decide),
   (C6_unterminated ("example.com \x7b").toList [("x").toList]).2 (by decide)⟩

/-! ### Claim C2 -/

/-- C2: the scan tracks no depth across retained lines, so an `s3.` header
nested *inside* a retained block is treated as a block start and removed —
contrary to the top-level-only behavior the comment in the source claims.
Here the `s3.inner` block nested in `example.com { ... }` is stripped. -/
theorem C2_nested_block_removed :
    stripS3 ("example.com \x7b\n  s3.inner \x7b\n    x\n  \x7d\n\x7d").toList =
      ("example.com \x7b\n\x7d\n").toList := by
  rw [stripS3_go]
  decide

/-! ### Claim C8 -/

/-- C8 counterexample: the header-free input `a\r\nb` is returned as
`a\nb\n` — the interior `\r` is removed, which is more than the claimed
trailing-whitespace normalization `rstrip + \n`. -/
theorem C8_counterexample :
    stripS3 ("a\r\nb").toList = ("a\nb\n").toList ∧
      stripS3 ("a\r\nb").toList ≠ rstrip (("a\r\nb").toList) ++ ['\n'] := by
  rw [stripS3_go]
  constructor
  · decide
  · decide

/-- C8 (amended): for input whose line boundaries are all `\n` and in which
no line matches the removal header, the scan returns the input with exactly
the trailing-whitespace normalization: trailing whitespace stripped, then
one `\n` appended. -/
theorem C8_noop (text : List Char)
    (hb : ∀ c ∈ text, isLineBoundary c = true → c = '\n')
    (hnh : ∀ l ∈ pySplitlines text, isBlockHeader l = false) :
    stripS3 text = rstrip text ++ ['\n'] := by
  unfold stripS3
  rw [stripLoop_no_op hnh, rstrip_joinNl_ps text hb]

/-- C8 witness: a Caddyfile-like text without any `s3.` header is returned
`rstrip`-normalized with one trailing newline. -/
theorem C8_witness :
    stripS3 ("example.com \x7b\n  x\n\x7d\n\n").toList =
      rstrip ("example.com \x7b\n  x\n\x7d\n\n").toList ++ ['\n'] :=
  C8_noop ("example.com \x7b\n  x\n\x7d\n\n").toList (by decide) (by decide)

/-! ### Claim C10 -/

/-- Characters of `rstrip x` are characters of `x`. -/
theorem rstrip_mem_subset {x : List Char} {c : Char} (hc : c ∈ rstrip x) :
    c ∈ x := by
  obtain ⟨sp, hx, _⟩ := rstrip_decomposition x
  rw [hx]
  exact List.mem_append_left _ hc

/-- Appending whitespace to a header line keeps it a header line. -/
theorem isBlockHeader_append_sp {w sp : List Char} (hw : isBlockHeader w = true)
    (hsp : ∀ c ∈ sp, isPySpace c = true) : isBlockHeader (w ++ sp) = true := by
  simp only [isBlockHeader, Bool.and_eq_true, decide_eq_true_eq,
    Bool.not_eq_true'] at hw ⊢
  obtain ⟨⟨⟨h1, h2⟩, h3⟩, h4⟩ := hw
  have f1 : List.dropWhile isPySpace w ≠ [] := by
    intro h0
    rw [h0] at h1
    simp at h1
  rw [dropWhile_append_ne_nil sp f1]
  generalize hr : List.dropWhile isPySpace w = r at h1 h2 h3 h4 ⊢
  obtain ⟨rr, hrr⟩ : ∃ rr, r = ['s', '3', '.'] ++ rr :=
    ⟨r.drop 3, by conv_lhs => rw [← List.take_append_drop 3 r, h1]⟩
  subst hrr
  have hd3 : (['s', '3', '.'] ++ rr).drop 3 = rr := rfl
  rw [hd3] at h2 h3 h4
  rw [List.append_assoc]
  obtain ⟨t2, ht2⟩ := List.takeWhile_prefix (p := labChar) (l := rr)
  have hlab_all : ∀ c ∈ rr.takeWhile labChar, labChar c = true :=
    fun c hc => List.mem_takeWhile_imp hc
  set lab := rr.takeWhile labChar with hlabdef
  have hdrop_rr : rr.drop lab.length = t2 := by
    conv_lhs => rw [← ht2]
    exact List.drop_left _ _
  rw [hdrop_rr] at h3 h4
  have ht2ne : t2 ≠ [] := by
    intro h0
    rw [h0] at h3
    simp at h3
  rcases t2 with _ | ⟨c, t2t⟩
  · exact absurd rfl ht2ne
  have hXne : List.dropWhile isPySpace (c :: t2t) ≠ [] := by
    intro h0
    rw [h0] at h3
    simp at h3
  have hc_fail : labChar c = false := by
    cases hspc : isPySpace c with
    | true => simp [labChar, hspc]
    | false =>
      rw [dropWhile_cons_neg _ hspc] at h3
      simp only [List.head?_cons, Option.some_inj] at h3
      subst h3
      simp [labChar]
  have hlab' : (rr ++ sp).takeWhile labChar = lab := by
    conv_lhs => rw [← ht2]
    rw [List.append_assoc, takeWhile_append_all _ hlab_all, List.cons_append,
      List.takeWhile_cons, if_neg (by simp [hc_fail]), List.append_nil]
  have hdrop' : (rr ++ sp).drop lab.length = (c :: t2t) ++ sp := by
    conv_lhs => rw [← ht2]
    rw [List.append_assoc]
    exact List.drop_left _ _
  rcases hX : List.dropWhile isPySpace (c :: t2t) with _ | ⟨a, Xt⟩
  · exact absurd hX hXne
  rw [hX] at h3 h4
  simp only [List.head?_cons, Option.some_inj] at h3
  subst h3
  have hshape : (['s', '3', '.'] ++ (rr ++ sp)).take 3 = ['s', '3', '.'] := rfl
  have hshape2 : (['s', '3', '.'] ++ (rr ++ sp)).drop 3 = rr ++ sp := rfl
  rw [hshape2, hlab', hdrop', dropWhile_append_ne_nil sp hXne, hX]
  refine ⟨⟨⟨hshape, h2⟩, by simp⟩, ?_⟩
  rw [List.cons_append]
  simp only [List.drop_succ_cons, List.drop_zero] at h4 ⊢
  rw [List.all_append, h4, Bool.true_and]
  exact List.all_eq_true.mpr hsp

/-- A non-header line stays a non-header after `rstrip`. -/
theorem isBlockHeader_rstrip {x : List Char} (h : isBlockHeader x = false) :
    isBlockHeader (rstrip x) = false := by
  cases hh : isBlockHeader (rstrip x) with
  | false => rfl
  | true =>
    exfalso
    obtain ⟨sp, hx, hsp⟩ := rstrip_decomposition x
    have h2 := isBlockHeader_append_sp hh hsp
    rw [← hx] at h2
    rw [h2] at h
    exact Bool.noConfusion h

/-- C10: `_strip_s3_vhost_from_caddyfile` is idempotent on every input. -/
theorem C10_idempotent (text : List Char) :
    stripS3 (stripS3 text) = stripS3 text := by
  have hout_bf : ∀ l ∈ stripLoop (pySplitlines text), ∀ c ∈ l,
      isLineBoundary c = false :=
    fun l hl => ps_lines_bf text l (stripLoop_subset _ l hl)
  have hout_nh : ∀ l ∈ stripLoop (pySplitlines text), isBlockHeader l = false :=
    stripLoop_no_header _
  have hS : stripS3 text =
      joinNl (rstripLines (stripLoop (pySplitlines text))) ++ ['\n'] := by
    unfold stripS3
    rw [rstrip_joinNl]
  cases hls : rstripLines (stripLoop (pySplitlines text)) with
  | nil =>
    rw [hS, hls]
    rw [stripS3_go]
    decide
  | cons x xs =>
    have hbf' : ∀ l ∈ rstripLines (stripLoop (pySplitlines text)), ∀ c ∈ l,
        isLineBoundary c = false := by
      intro l hl c hc
      rcases rstripLines_mem hl with h | ⟨y, hy, rfl⟩
      · exact hout_bf l h c hc
      · exact hout_bf y hy c (rstrip_mem_subset hc)
    have hnh' : ∀ l ∈ rstripLines (stripLoop (pySplitlines text)),
        isBlockHeader l = false := by
      intro l hl
      rcases rstripLines_mem hl with h | ⟨y, hy, rfl⟩
      · exact hout_nh l h
      · exact isBlockHeader_rstrip (hout_nh y hy)
    rw [hS]
    unfold stripS3
    rw [ps_joinNl (by rw [hls]; simp) hbf', stripLoop_no_op hnh',
      ← rstrip_joinNl, rstrip_idem, rstrip_joinNl]

/-! ### Claim C9 -/

/-- `lookupKV` one pair at a time. -/
theorem lookupKV_cons (kv : List Char × List Char) (rest : EnvDict) (k : List Char) :
    lookupKV (kv :: rest) k = if kv.1 = k then some kv.2 else lookupKV rest k := rfl

/-- Lookup after an in-place update, at the assigned key. -/
theorem lookupKV_map_same : ∀ (m : EnvDict) (k v : List Char),
    keyMem k (m.map Prod.fst) = true →
    lookupKV (m.map (setPair k v)) k = some v := by
  intro m k v h
  induction m with
  | nil => simp [keyMem] at h
  | cons kv rest ih =>
    rw [List.map_cons] at h ⊢
    by_cases he : kv.1 = k
    · simp [lookupKV, setPair, he]
    · have h2 : keyMem k (rest.map Prod.fst) = true := by
        unfold keyMem at h
        rwa [if_neg he] at h
      simp only [lookupKV, setPair, he, if_false, if_neg he]
      exact ih h2

/-- Lookup after an in-place update, at a different key. -/
theorem lookupKV_map_other : ∀ (m : EnvDict) {kp k : List Char},
    kp ≠ k → ∀ v : List Char,
    lookupKV (m.map (setPair kp v)) k = lookupKV m k := by
  intro m kp k hne v
  induction m with
  | nil => rfl
  | cons kv rest ih =>
    rw [List.map_cons]
    by_cases he : kv.1 = kp
    · have hkk : kv.1 ≠ k := by rw [he]; exact hne
      have hsp : setPair kp v kv = (kp, v) := by simp [setPair, he]
      rw [hsp, lookupKV_cons, lookupKV_cons]
      show (if kp = k then some v else lookupKV (rest.map (setPair kp v)) k) =
        if kv.1 = k then some kv.2 else lookupKV rest k
      rw [if_neg hne, if_neg hkk]
      exact ih
    · have hsp : setPair kp v kv = kv := by simp [setPair, he]
      rw [hsp, lookupKV_cons, lookupKV_cons]
      by_cases hk : kv.1 = k
      · rw [if_pos hk, if_pos hk]
      · rw [if_neg hk, if_neg hk]
        exact ih

/-- Lookup after appending a fresh pair, at the appended key. -/
theorem lookupKV_append_one_same : ∀ (m : EnvDict) (k v : List Char),
    keyMem k (m.map Prod.fst) = false →
    lookupKV (m ++ [(k, v)]) k = some v := by
  intro m k v h
  induction m with
  | nil =>
    show (if k = k then some v else lookupKV [] k) = some v
    rw [if_pos rfl]
  | cons kv rest ih =>
    rw [List.map_cons] at h
    unfold keyMem at h
    split at h
    · exact Bool.noConfusion h
    · rename_i hne
      rw [List.cons_append, lookupKV_cons, if_neg hne]
      exact ih h

/-- Lookup after appending a pair with a different key. -/
theorem lookupKV_append_one_other : ∀ (m : EnvDict) {kp k : List Char},
    kp ≠ k → ∀ v : List Char,
    lookupKV (m ++ [(kp, v)]) k = lookupKV m k := by
  intro m kp k hne v
  induction m with
  | nil =>
    show (if kp = k then some v else lookupKV [] k) = lookupKV [] k
    rw [if_neg hne]
  | cons kv rest ih =>
    rw [List.cons_append, lookupKV_cons, lookupKV_cons]
    by_cases hk : kv.1 = k
    · rw [if_pos hk, if_pos hk]
    · rw [if_neg hk, if_neg hk]
      exact ih

/-- `dictSet` binds the assigned key to the assigned value. -/
theorem lookupKV_dictSet_same (m : EnvDict) (k v : List Char) :
    lookupKV (dictSet m k v) k = some v := by
  unfold dictSet
  split
  · rename_i h
    exact lookupKV_map_same m k v h
  · rename_i h
    exact lookupKV_append_one_same m k v (by simpa using h)

/-- `dictSet` leaves other keys' bindings unchanged. -/
theorem lookupKV_dictSet_other (m : EnvDict) {kp k : List Char}
    (hne : kp ≠ k) (v : List Char) :
    lookupKV (dictSet m kp v) k = lookupKV m k := by
  unfold dictSet
  split
  · exact lookupKV_map_other m hne v
  · exact lookupKV_append_one_other m hne v

/-- The `_parse_env` fold binds each key to the value of the last parsed
line carrying it, falling back to the initial dict. -/
theorem lookupKV_foldl (k : List Char) :
    ∀ (lines : List (List Char)) (acc : EnvDict),
    lookupKV (lines.foldl parseStep acc) k =
      (match ((lines.filterMap parseLine).filter
          (fun kv => decide (kv.1 = k))).getLast? with
       | some kv => some kv.2
       | none => lookupKV acc k) := by
  intro lines
  induction lines using List.reverseRecOn with
  | nil => intro acc; rfl
  | append_singleton lines l ih =>
    intro acc
    rw [List.foldl_append, List.foldl_cons, List.foldl_nil, List.filterMap_append]
    cases hp : parseLine l with
    | none =>
      rw [show parseStep (lines.foldl parseStep acc) l =
          lines.foldl parseStep acc from by simp [parseStep, hp]]
      rw [show List.filterMap parseLine [l] = [] from by simp [hp]]
      rw [List.append_nil]
      exact ih acc
    | some kv =>
      rw [show parseStep (lines.foldl parseStep acc) l =
          dictSet (lines.foldl parseStep acc) kv.1 kv.2 from by
        simp [parseStep, hp]]
      rw [show List.filterMap parseLine [l] = [kv] from by simp [hp]]
      rw [List.filter_append]
      by_cases hk : kv.1 = k
      · rw [show List.filter (fun kv => decide (kv.1 = k)) [kv] = [kv] from by
          simp [hk]]
        rw [List.getLast?_concat]
        rw [← hk]
        exact lookupKV_dictSet_same _ _ _
      · rw [show List.filter (fun kv => decide (kv.1 = k)) [kv] = [] from by
          simp [hk]]
        rw [List.append_nil, lookupKV_dictSet_other _ hk _]
        exact ih acc

/-- A nonempty boundary-free text is a single line. -/
theorem ps_bf_singleton : ∀ {l : List Char}, l ≠ [] →
    (∀ c ∈ l, isLineBoundary c = false) → pySplitlines l = [l] := by
  intro l
  induction l with
  | nil => intro h _; exact absurd rfl h
  | cons c rest ih =>
    intro _ hbf
    cases rest with
    | nil => exact ps_cons_bf_nil (hbf c (by simp)) ps_nil
    | cons d rest2 =>
      exact ps_cons_bf_cons (hbf c (by simp))
        (ih (by simp) (fun x hx => hbf x (by simp [hx])))

/-- `hasEq` holds for any list containing a literal `=`. -/
theorem hasEq_append : ∀ (a b : List Char), hasEq (a ++ '=' :: b) = true := by
  intro a b
  induction a with
  | nil =>
    show (if '=' = '=' then true else hasEq b) = true
    rw [if_pos rfl]
  | cons c t ih =>
    show (if c = '=' then true else hasEq (t ++ '=' :: b)) = true
    split
    · rfl
    · exact ih

/-- `splitEq` splits at the first `=` after an `=`-free prefix. -/
theorem splitEq_append : ∀ {a : List Char}, (∀ c ∈ a, ¬ c = '=') →
    ∀ b : List Char, splitEq (a ++ '=' :: b) = (a, b) := by
  intro a
  induction a with
  | nil =>
    intro _ b
    show (if '=' = '=' then (([] : List Char), b) else _) = ([], b)
    rw [if_pos rfl]
  | cons c t ih =>
    intro h b
    show (if c = '=' then (([] : List Char), t ++ '=' :: b)
      else ((c :: (splitEq (t ++ '=' :: b)).1, (splitEq (t ++ '=' :: b)).2))) =
      (c :: t, b)
    rw [if_neg (h c (by simp)), ih (fun x hx => h x (by simp [hx])) b]

/-- `dropWhile` is the identity on a whitespace-free list. -/
theorem dropWhile_eq_self_of_all {s : List Char}
    (h : ∀ c ∈ s, isPySpace c = false) :
    List.dropWhile isPySpace s = s := by
  cases s with
  | nil => rfl
  | cons c t => exact dropWhile_cons_neg _ (h c (by simp))

/-- `pyStrip` is the identity on a whitespace-free list. -/
theorem pyStrip_eq_self_of_all {s : List Char}
    (h : ∀ c ∈ s, isPySpace c = false) : pyStrip s = s := by
  unfold pyStrip rstrip
  rw [dropWhile_eq_self_of_all h,
    dropWhile_eq_self_of_all (fun c hc => h c (by simpa using hc)),
    List.reverse_reverse]

/-- C9: `_parse_env` resolves duplicate keys by last occurrence, and strips
a matching outer quote pair (double or single quotes) from a value. -/
theorem C9_parse_env :
    (∀ (content k : List Char),
      2 ≤ (((pySplitlines content).filterMap parseLine).filter
        (fun kv => decide (kv.1 = k))).length →
      lookupKV (parseEnv content) k =
        (((pySplitlines content).filterMap parseLine).filter
          (fun kv => decide (kv.1 = k))).getLast?.map Prod.snd) ∧
    (∀ (k mid : List Char) (q : Char), (q = dquote ∨ q = apos) → k ≠ [] →
      (∀ c ∈ k, isPySpace c = false ∧ ¬ c = '=') → k.head? ≠ some '#' →
      (∀ c ∈ mid, isLineBoundary c = false) →
      lookupKV (parseEnv (k ++ '=' :: q :: (mid ++ [q]))) k = some mid) := by
  constructor
  · intro content k h2
    unfold parseEnv
    rw [lookupKV_foldl]
    rcases hlast : (((pySplitlines content).filterMap parseLine).filter
        (fun kv => decide (kv.1 = k))).getLast? with _ | kv
    · rw [List.getLast?_eq_none_iff] at hlast
      rw [hlast] at h2
      simp at h2
    · rw [hlast]
      rfl
  · intro k mid q hq hk hkc hhash hmid
    have hqsp : isPySpace q = false := by
      rcases hq with h | h <;> subst h <;> decide
    have hqbf : isLineBoundary q = false := by
      rcases hq with h | h <;> subst h <;> decide
    have hkbf : ∀ c ∈ k, isLineBoundary c = false := by
      intro c hc
      cases hb : isLineBoundary c with
      | false => rfl
      | true => exact absurd (isPySpace_of_boundary hb) (by simp [(hkc c hc).1])
    have hlbf : ∀ c ∈ k ++ '=' :: q :: (mid ++ [q]), isLineBoundary c = false := by
      intro c hc
      rw [List.mem_append] at hc
      rcases hc with h | h
      · exact hkbf c h
      · rcases List.mem_cons.mp h with h | h
        · subst h; decide
        · rcases List.mem_cons.mp h with h | h
          · subst h; exact hqbf
          · rw [List.mem_append] at h
            rcases h with h | h
            · exact hmid c h
            · rw [List.mem_singleton.mp h]; exact hqbf
    obtain ⟨kc, kt, hkk⟩ : ∃ kc kt, k = kc :: kt := by
      cases k with
      | nil => exact absurd rfl hk
      | cons a b => exact ⟨a, b, rfl⟩
    have hline_ne : k ++ '=' :: q :: (mid ++ [q]) ≠ [] := by
      rw [hkk]; simp
    have hps : pySplitlines (k ++ '=' :: q :: (mid ++ [q])) =
        [k ++ '=' :: q :: (mid ++ [q])] := ps_bf_singleton hline_ne hlbf
    have hstrip : pyStrip (k ++ '=' :: q :: (mid ++ [q])) =
        k ++ '=' :: q :: (mid ++ [q]) := by
      unfold pyStrip
      rw [show k ++ '=' :: q :: (mid ++ [q]) = kc :: (kt ++ '=' :: q :: (mid ++ [q]))
          from by rw [hkk]; simp]
      rw [dropWhile_cons_neg _ ((hkc kc (by rw [hkk]; simp)).1)]
      rw [show kc :: (kt ++ '=' :: q :: (mid ++ [q])) =
          (kc :: (kt ++ '=' :: q :: mid)) ++ [q] from by simp]
      exact rstrip_eq_self_of_last hqsp
    have hparse : parseLine (k ++ '=' :: q :: (mid ++ [q])) = some (k, mid) := by
      unfold parseLine
      rw [hstrip]
      rw [if_neg hline_ne]
      rw [if_neg (by
        rw [hkk]
        simp only [List.cons_append, List.head?_cons]
        intro hcon
        exact hhash (by rw [hkk]; simpa using hcon))]
      rw [if_neg (by rw [hasEq_append]; simp)]
      rw [splitEq_append (fun c hc => (hkc c hc).2)]
      show some (pyStrip k, stripOuterQuotes (pyStrip (q :: (mid ++ [q])))) =
        some (k, mid)
      rw [pyStrip_eq_self_of_all (fun c hc => (hkc c hc).1)]
      have hval : pyStrip (q :: (mid ++ [q])) = q :: (mid ++ [q]) := by
        unfold pyStrip
        rw [dropWhile_cons_neg _ hqsp,
          show q :: (mid ++ [q]) = (q :: mid) ++ [q] from by simp]
        exact rstrip_eq_self_of_last hqsp
      rw [hval]
      have hsoq : stripOuterQuotes (q :: (mid ++ [q])) = mid := by
        unfold stripOuterQuotes
        rw [if_pos ?_]
        · show (mid ++ [q]).dropLast = mid
          exact List.dropLast_concat
        · constructor
          · simp
          · rcases hq with h | h
            · subst h
              left
              constructor
              · simp
              · rw [show dquote :: (mid ++ [dquote]) = (dquote :: mid) ++ [dquote]
                  from by simp]
                exact List.getLast?_concat _
            · subst h
              right
              constructor
              · simp
              · rw [show apos :: (mid ++ [apos]) = (apos :: mid) ++ [apos]
                  from by simp]
                exact List.getLast?_concat _
      rw [hsoq]
    unfold parseEnv
    rw [hps, List.foldl_cons, List.foldl_nil]
    rw [show parseStep [] (k ++ '=' :: q :: (mid ++ [q])) = dictSet [] k mid from by
      simp [parseStep, hparse]]
    exact lookupKV_dictSet_same [] k mid

/-- C9 witness: on `A=1\nA=2` the binding for `A` is the last value `2`, and
the quoted line `B="hi"` binds `B` to the unquoted `hi`. -/
theorem C9_witness :
    lookupKV (parseEnv ("A=1\nA=2").toList) ("A").toList = some (("2").toList) ∧
      lookupKV (parseEnv (("B").toList ++ '=' :: dquote ::
        (("hi").toList ++ [dquote]))) ("B").toList = some (("hi").toList) :=
  ⟨(C9_parse_env.1 ("A=1\nA=2").toList ("A").toList (by decide)).trans (by decide),
   C9_parse_env.2 ("B").toList ("hi").toList dquote (Or.inl rfl) (by decide)
     (by decide) (by decide) (by decide)⟩

end VpsR2
